import Mathlib

/-
  Verification of the distance-vector routing engine in src/DVrouter.py.

  The Python state is three dictionaries plus scalars; Python dicts are
  modelled as association lists (insertion ordered, duplicate-free keys in
  every state the program builds), with lookup, in-place-overwriting insert
  and erase mirroring dict indexing, assignment and del.  Machine integers
  are Int (Python ints are unbounded).  Addresses are modelled as Nat (the
  simulator's addresses are opaque identifiers with decidable equality that
  round-trip losslessly through the JSON encoding).
-/

namespace DVR

abbrev Addr := Nat
abbrev Cost := Int
abbrev Port := Nat

/-- INFINITY = 16 (src/DVrouter.py line 11). -/
def INFINITY : Cost := 16

/-- A Python dict keyed by addresses, as an insertion-ordered association list. -/
abbrev AList (α : Type) := List (Addr × α)

/-- Dict membership lookup: d[k] / d.get(k). -/
def lookupD {α : Type} (k : Addr) : AList α → Option α
  | [] => none
  | p :: l => if p.1 = k then some p.2 else lookupD k l

/-- Dict assignment d[k] = v: overwrites in place, otherwise appends (Python
insertion-order semantics). -/
def insertD {α : Type} (k : Addr) (v : α) : AList α → AList α
  | [] => [(k, v)]
  | p :: l => if p.1 = k then (k, v) :: l else p :: insertD k v l

/-- Dict deletion del d[k] (removes the entry with key k, if present). -/
def eraseD {α : Type} (k : Addr) : AList α → AList α
  | [] => []
  | p :: l => if p.1 = k then l else p :: eraseD k l

/-- d.keys(). -/
def keysD {α : Type} (l : AList α) : List Addr := l.map Prod.fst

/-- Every state the Python program builds has duplicate-free dict keys. -/
def NodupKeys {α : Type} (l : AList α) : Prop := (keysD l).Nodup

instance {α : Type} (l : AList α) : Decidable (NodupKeys l) :=
  inferInstanceAs (Decidable ((keysD l).Nodup))

/-- Python dict equality (order-independent comparison of key/value sets),
used by the `new_dv != self.distance_vector` test on line 134. -/
def dictBeq {α : Type} [DecidableEq α] (a b : AList α) : Bool :=
  a.all (fun p => decide (lookupD p.1 b = some p.2)) &&
    b.all (fun p => decide (lookupD p.1 a = some p.2))

/-- Packet kinds: Packet.ROUTING vs traceroute/data packets
(packet.is_traceroute distinguishes them). -/
inductive PKind where
  | routing
  | traceroute
deriving DecidableEq

/-- A simulator packet.  For routing packets, content is the JSON-decoded
destination-to-cost mapping; none models a payload that fails to decode
(json.JSONDecodeError).  Data/traceroute payloads are never read. -/
structure Packet where
  kind : PKind
  src_addr : Addr
  dst_addr : Addr
  content : Option (AList Cost)
deriving DecidableEq

/-- Per-neighbor info: {'port': port, 'cost': cost} (line 24). -/
structure NeighborInfo where
  port : Port
  cost : Cost
deriving DecidableEq

/-- The DVrouter instance state (lines 17-25). -/
structure State where
  addr : Addr
  heartbeat_time : Int
  last_time : Int
  distance_vector : AList (Cost × Option Addr)
  neighbors : AList NeighborInfo
  neighbor_dvs : AList (AList Cost)
deriving DecidableEq

/-- DVrouter.__init__ (lines 17-25). -/
def init (addr : Addr) (heartbeat_time : Int) : State :=
  { addr := addr
    heartbeat_time := heartbeat_time
    last_time := 0
    distance_vector := [(addr, (0, some addr))]
    neighbors := []
    neighbor_dvs := [] }

/-- Estimate through one neighbor entry p for destination dest:
c(x,v) + D_v(dest), lines 112-120.  D_v(v) = 0; otherwise the neighbor's
last advertised cost for dest, defaulting to INFINITY. -/
def estimate (s : State) (p : Addr × NeighborInfo) (dest : Addr) : Cost :=
  p.2.cost +
    (if dest = p.1 then 0
     else (lookupD dest ((lookupD p.1 s.neighbor_dvs).getD [])).getD INFINITY)

/-- One iteration of the inner loop of update_dv (lines 111-125): keep the
strictly better estimate together with the neighbor providing it. -/
def mcnh_step (s : State) (dest : Addr) (acc : Cost × Option Addr)
    (p : Addr × NeighborInfo) : Cost × Option Addr :=
  if estimate s p dest < acc.1 then (estimate s p dest, some p.1) else acc

/-- The (min_cost, next_hop) pair computed by lines 107-125 for one dest. -/
def min_cost_next_hop (s : State) (dest : Addr) : Cost × Option Addr :=
  s.neighbors.foldl (mcnh_step s dest) (INFINITY, none)

/-- Modelled from the spec: newCost(d), the minimum over all neighbors of
estimate(v,d), clamped to at most INFINITY (the INFINITY seed realizes the
clamp, and is the value of an empty minimum). -/
def specNewCost (s : State) (d : Addr) : Cost :=
  (s.neighbors.map (fun p => estimate s p d)).foldl min INFINITY

/-- all_dests (lines 95-98): self, the neighbors, and every destination in
any neighbor's advertisement.  Python uses a set; duplicates are harmless
here because each destination's entry is recomputed identically. -/
def dv_candidates (s : State) : List Addr :=
  s.addr :: (keysD s.neighbors ++
    s.neighbor_dvs.foldl (fun acc q => acc ++ keysD q.2) [])

/-- Body of the per-destination loop of update_dv (lines 103-131). -/
def nd_step (s : State) (nd : AList (Cost × Option Addr)) (dest : Addr) :
    AList (Cost × Option Addr) :=
  if dest = s.addr then nd
  else
    let e := min_cost_next_hop s dest
    let min_cost := min e.1 INFINITY
    if min_cost < INFINITY then insertD dest (min_cost, e.2) nd else nd

/-- The fresh table computed by update_dv before the change test
(lines 100-131): starts from {self: (0, self)} and adds every reachable
candidate destination. -/
def new_dv_of (s : State) : AList (Cost × Option Addr) :=
  (dv_candidates s).foldl (nd_step s) [(s.addr, (0, some s.addr))]

/-- get_dv_for_broadcast (lines 143-145), taking the table directly. -/
def get_dv_for_broadcast (dv : AList (Cost × Option Addr)) : AList Cost :=
  dv.map (fun p => (p.1, p.2.1))

/-- One poisoned-reverse override (lines 155-157). -/
def poison_step (neighbor_addr : Addr) (acc : AList Cost)
    (p : Addr × (Cost × Option Addr)) : AList Cost :=
  if p.2.2 = some neighbor_addr ∧ p.1 ≠ neighbor_addr
  then insertD p.1 INFINITY acc else acc

/-- The per-neighbor payload dv_to_send of broadcast_dv (lines 152-157):
the full table as dest-to-cost, with routes through that neighbor poisoned. -/
def dv_to_send_for (dv : AList (Cost × Option Addr)) (neighbor_addr : Addr) :
    AList Cost :=
  dv.foldl (poison_step neighbor_addr) (get_dv_for_broadcast dv)

/-- broadcast_dv over explicit table and neighbor dict (lines 147-161);
json.dumps/loads round-trips the mapping, so content carries it directly. -/
def broadcast_core (addr : Addr) (dv : AList (Cost × Option Addr))
    (neighbors : AList NeighborInfo) : List (Port × Packet) :=
  neighbors.map (fun q =>
    (q.2.port, Packet.mk PKind.routing addr q.1 (some (dv_to_send_for dv q.1))))

/-- broadcast_dv (lines 147-161): one routing packet per neighbor, each with
its own poisoned view. -/
def broadcast_dv (s : State) : List (Port × Packet) :=
  broadcast_core s.addr s.distance_vector s.neighbors

/-- update_dv (lines 89-141): recompute the table; commit and broadcast only
when the recomputed dict differs from the current one. -/
def update_dv (s : State) : State × List (Port × Packet) :=
  if dictBeq (new_dv_of s) s.distance_vector = true then (s, [])
  else
    ({ s with distance_vector := new_dv_of s },
     broadcast_dv { s with distance_vector := new_dv_of s })

/-- The sends of the traceroute branch of handle_packet (lines 29-36): look
up the destination; forward out the next hop's port only when the cost is
finite and the next hop is a live neighbor, else silently drop. -/
def forward_sends (s : State) (packet : Packet) : List (Port × Packet) :=
  match lookupD packet.dst_addr s.distance_vector with
  | some (cost, next_hop) =>
    if cost < INFINITY then
      match next_hop with
      | some nh =>
        match lookupD nh s.neighbors with
        | some info => [(info.port, packet)]
        | none => []
      | none => []
    else []
  | none => []

/-- handle_packet (lines 27-49), with well-typed routing payloads: a decoded
destination-to-cost dict, or none for a payload that fails to decode (the
JSONDecodeError path, which is caught, logged and dropped). -/
def handle_packet (s : State) (port : Port) (packet : Packet) :
    State × List (Port × Packet) :=
  match packet.kind with
  | PKind.traceroute => (s, forward_sends s packet)
  | PKind.routing =>
    match packet.content with
    | none => (s, [])
    | some received_dv =>
      if (lookupD packet.src_addr s.neighbors).isSome = true then
        update_dv { s with
          neighbor_dvs := insertD packet.src_addr received_dv s.neighbor_dvs }
      else (s, [])

/-- The state after the two assignments of handle_new_link (lines 54-55). -/
def linkUpState (s : State) (port : Port) (endpoint : Addr) (cost : Cost) :
    State :=
  { s with
    neighbors := insertD endpoint ⟨port, cost⟩ s.neighbors
    neighbor_dvs := insertD endpoint [] s.neighbor_dvs }

/-- handle_new_link (lines 51-56). -/
def handle_new_link (s : State) (port : Port) (endpoint : Addr) (cost : Cost) :
    State × List (Port × Packet) :=
  update_dv (linkUpState s port endpoint cost)

/-- The per-entry effect of lines 73-77: any route whose next hop is the
removed endpoint becomes (INFINITY, None). -/
def invalidate_route (endpoint : Addr) (v : Cost × Option Addr) :
    Cost × Option Addr :=
  if v.2 = some endpoint then (INFINITY, none) else v

/-- handle_remove_link (lines 58-80).  The guard `if endpoint_to_remove:` is a
Python truthiness test on the found address, modelled as nonzero for
integer-modelled addresses. -/
def handle_remove_link (s : State) (port : Port) : State × List (Port × Packet) :=
  match s.neighbors.find? (fun p => p.2.port == port) with
  | none => (s, [])
  | some q =>
    if q.1 ≠ 0 then
      update_dv { s with
        neighbors := eraseD q.1 s.neighbors
        neighbor_dvs := eraseD q.1 s.neighbor_dvs
        distance_vector := s.distance_vector.map
          (fun p => (p.1, invalidate_route q.1 p.2)) }
    else (s, [])

/-- handle_time (lines 82-87). -/
def handle_time (s : State) (time_ms : Int) : State × List (Port × Packet) :=
  if s.heartbeat_time ≤ time_ms - s.last_time then
    ({ s with last_time := time_ms }, broadcast_dv s)
  else (s, [])

/-- The externally driven events of the engine. -/
inductive Event where
  | packet (port : Port) (pkt : Packet)
  | new_link (port : Port) (endpoint : Addr) (cost : Cost)
  | remove_link (port : Port)
  | time (time_ms : Int)
deriving DecidableEq

/-- Dispatch one event to its handler. -/
def step (s : State) (e : Event) : State × List (Port × Packet) :=
  match e with
  | Event.packet port pkt => handle_packet s port pkt
  | Event.new_link port endpoint cost => handle_new_link s port endpoint cost
  | Event.remove_link port => handle_remove_link s port
  | Event.time t => handle_time s t

/-- The state after one event. -/
def stepS (s : State) (e : Event) : State := (step s e).1

/-- States reachable from some freshly constructed router by events all
satisfying P. -/
inductive Reachable (P : Event → Prop) : State → Prop where
  | start (addr : Addr) (heartbeat_time : Int) :
      Reachable P (init addr heartbeat_time)
  | step (s : State) (e : Event) :
      Reachable P s → P e → Reachable P (stepS s e)

/-- Environment restriction: link costs supplied at link-up are non-negative. -/
def eventLinkCostsNN (e : Event) : Bool :=
  match e with
  | Event.new_link _ _ cost => decide (0 ≤ cost)
  | _ => true

/-- Environment restriction: every decodable routing payload advertises only
non-negative costs. -/
def eventAdvertsNN (e : Event) : Bool :=
  match e with
  | Event.packet _ pkt =>
    match pkt.content with
    | some dv => dv.all (fun p => decide (0 ≤ p.2))
    | none => true
  | _ => true

/-- Both environment restrictions together. -/
def eventNN (e : Event) : Bool := eventLinkCostsNN e && eventAdvertsNN e

/-
  Dynamically-typed model of routing-packet ingestion.

  json.loads (line 40) can succeed while producing something other than a
  dict of numeric costs; the value is stored wholesale into neighbor_dvs
  (line 45) before update_dv runs, and the except clause on line 48 only
  catches json.JSONDecodeError and KeyError.  The following model keeps the
  decoded payload as a dynamically-typed Python value to reproduce that
  behavior; Python booleans and floats are out of scope (the advertised
  costs of interest are integers).
-/

/-- A decoded JSON value as a Python object. -/
inductive PyVal where
  | int (n : Int)
  | str (s : String)
  | list (elems : List PyVal)
  | dict (entries : List (Addr × PyVal))
  | none

/-- Router state whose neighbor advertisements hold raw decoded values. -/
structure StateD where
  addr : Addr
  heartbeat_time : Int
  last_time : Int
  distance_vector : AList (Cost × Option Addr)
  neighbors : AList NeighborInfo
  neighbor_dvs : AList PyVal

def pyAttributeError : String := "AttributeError"

def pyTypeError : String := "TypeError"

/-- v.keys(): only dicts have it; anything else raises AttributeError. -/
def pyKeys (v : PyVal) : Except String (List Addr) :=
  match v with
  | PyVal.dict entries => Except.ok (entries.map Prod.fst)
  | _ => Except.error pyAttributeError

/-- v.get(k, dflt): only dicts have it. -/
def pyGet (v : PyVal) (k : Addr) (dflt : PyVal) : Except String PyVal :=
  match v with
  | PyVal.dict entries => Except.ok ((lookupD k entries).getD dflt)
  | _ => Except.error pyAttributeError

/-- int + v: raises TypeError unless v is numeric. -/
def pyAddInt (a : Int) (v : PyVal) : Except String Int :=
  match v with
  | PyVal.int b => Except.ok (a + b)
  | _ => Except.error pyTypeError

/-- update_dv (lines 89-141) over dynamically-typed stored advertisements.
An exception propagates before self.distance_vector is assigned, so the
error case leaves the state as it was on entry. -/
def update_dv_dyn (s : StateD) : Except String (StateD × List (Port × Packet)) := do
  let advert_keys ← s.neighbor_dvs.foldlM (fun acc q => do
      let ks ← pyKeys q.2
      pure (acc ++ ks)) ([] : List Addr)
  let all_dests := s.addr :: (keysD s.neighbors ++ advert_keys)
  let new_dv ← all_dests.foldlM (fun nd dest => do
      if dest = s.addr then
        pure nd
      else do
        let e ← s.neighbors.foldlM (fun (acc : Cost × Option Addr) p => do
            let cost_vy ←
              if dest = p.1 then pure (PyVal.int 0)
              else
                pyGet ((lookupD p.1 s.neighbor_dvs).getD (PyVal.dict [])) dest
                  (PyVal.int INFINITY)
            let total_cost ← pyAddInt p.2.cost cost_vy
            pure (if total_cost < acc.1 then (total_cost, some p.1) else acc))
          ((INFINITY : Cost), (Option.none : Option Addr))
        let min_cost := min e.1 INFINITY
        pure (if min_cost < INFINITY then insertD dest (min_cost, e.2) nd else nd))
    ([(s.addr, ((0 : Cost), some s.addr))])
  if dictBeq new_dv s.distance_vector = true then
    pure (s, [])
  else
    pure ({ s with distance_vector := new_dv },
          broadcast_core s.addr new_dv s.neighbors)

/-- Net effect of one routing-packet delivery on the Python object. -/
inductive POutcome where
  | ok (s : StateD) (sends : List (Port × Packet))
  | exn (msg : String) (s : StateD)

/-- The routing branch of handle_packet (lines 37-49) over a raw decoded
payload (none models a json.JSONDecodeError, which is caught).  Any other
exception escapes the except clause, leaving behind the neighbor_dvs entry
assigned on line 45. -/
def handle_routing_dyn (s : StateD) (src_addr : Addr) (decoded : Option PyVal) :
    POutcome :=
  match decoded with
  | Option.none => POutcome.ok s []
  | Option.some received_dv =>
    if (lookupD src_addr s.neighbors).isSome = true then
      match update_dv_dyn
        { s with neighbor_dvs := insertD src_addr received_dv s.neighbor_dvs } with
      | Except.ok (s2, sends) => POutcome.ok s2 sends
      | Except.error msg =>
        POutcome.exn msg
          { s with neighbor_dvs := insertD src_addr received_dv s.neighbor_dvs }
    else POutcome.ok s []

/-
  Concrete states used to exercise the model: a router 0 with heartbeat 5
  that brought up a cost-1 link to neighbor 1 on port 0, and variants.
-/

/-- Router 0 right after handle_new_link(0, 1, 1) from a fresh start. -/
def linked_state : State := stepS (init 0 5) (Event.new_link 0 1 1)

/-- linked_state after ingesting the advertisement that maps destination 2
to cost -100 from neighbor 1 (a decodable payload with a negative cost). -/
def neg_advert_state : State :=
  stepS linked_state
    (Event.packet 0 (Packet.mk PKind.routing 1 0 (some [(2, -100)])))

/-- A data packet addressed to neighbor 1. -/
def pkt_to_neighbor : Packet := Packet.mk PKind.traceroute 7 1 none

/-- A data packet addressed to router 0 itself. -/
def pkt_to_self : Packet := Packet.mk PKind.traceroute 7 0 none

/-- A payload that is valid JSON but not a mapping: the list [1, 2, 3]. -/
def listy_payload : PyVal := PyVal.list [PyVal.int 1, PyVal.int 2, PyVal.int 3]

/-- The dynamically-typed view of linked_state. -/
def dyn_state : StateD :=
  { addr := 0, heartbeat_time := 5, last_time := 0,
    distance_vector := [(0, (0, some 0)), (1, (1, some 1))],
    neighbors := [(1, ⟨0, 1⟩)],
    neighbor_dvs := [(1, PyVal.dict [])] }

/-
  Association-list (dict) lemmas.
-/

theorem lookupD_insertD_self {α : Type} (k : Addr) (v : α) (l : AList α) :
    lookupD k (insertD k v l) = some v := by
  induction l with
  | nil => simp [insertD, lookupD]
  | cons p t ih =>
    by_cases h : p.1 = k
    · simp [insertD, h, lookupD]
    · simp [insertD, h, lookupD, ih]

theorem lookupD_insertD_ne {α : Type} {k k' : Addr} (h : k' ≠ k) (v : α)
    (l : AList α) : lookupD k' (insertD k v l) = lookupD k' l := by
  have h' : k ≠ k' := Ne.symm h
  induction l with
  | nil => simp [insertD, lookupD, h']
  | cons p t ih =>
    by_cases hp : p.1 = k
    · subst hp
      simp [insertD, lookupD, h']
    · simp only [insertD, if_neg hp, lookupD]
      by_cases hp' : p.1 = k'
      · simp [hp']
      · simp [hp', ih]

theorem lookupD_mem {α : Type} {k : Addr} {v : α} :
    ∀ {l : AList α}, lookupD k l = some v → (k, v) ∈ l := by
  intro l
  induction l with
  | nil => intro h; simp [lookupD] at h
  | cons p t ih =>
    intro h
    by_cases hp : p.1 = k
    · rw [lookupD, if_pos hp] at h
      have hv := Option.some.inj h
      exact List.mem_cons.mpr (Or.inl (Prod.ext_iff.mpr ⟨hp.symm, hv.symm⟩))
    · rw [lookupD, if_neg hp] at h
      exact List.mem_cons_of_mem _ (ih h)

theorem mem_lookupD_isSome {α : Type} {k : Addr} {v : α} :
    ∀ {l : AList α}, (k, v) ∈ l → (lookupD k l).isSome = true := by
  intro l
  induction l with
  | nil => intro h; simp at h
  | cons p t ih =>
    intro h
    by_cases hp : p.1 = k
    · simp [lookupD, hp]
    · rw [lookupD, if_neg hp]
      rcases List.mem_cons.mp h with h1 | h2
      · exact absurd (congrArg Prod.fst h1.symm) hp
      · exact ih h2

theorem lookupD_eq_none_iff {α : Type} {k : Addr} {l : AList α} :
    lookupD k l = none ↔ k ∉ keysD l := by
  induction l with
  | nil => simp [lookupD, keysD]
  | cons p t ih =>
    by_cases hp : p.1 = k
    · simp [lookupD, hp, keysD]
    · simp [lookupD, hp, keysD, ih]
      intro h
      exact fun hh => hp hh.symm

theorem nodup_mem_lookupD {α : Type} {k : Addr} {v : α} :
    ∀ {l : AList α}, NodupKeys l → (k, v) ∈ l → lookupD k l = some v := by
  intro l
  induction l with
  | nil => intro _ h; simp at h
  | cons p t ih =>
    intro hn h
    rw [NodupKeys, keysD, List.map_cons, List.nodup_cons] at hn
    rcases List.mem_cons.mp h with h1 | h2
    · subst h1
      simp [lookupD]
    · have hk : k ∈ keysD t := List.mem_map.mpr ⟨(k, v), h2, rfl⟩
      have hp : p.1 ≠ k := fun hh => hn.1 (hh ▸ hk)
      rw [lookupD, if_neg hp]
      exact ih hn.2 h2

theorem mem_keysD_insertD {α : Type} {a k : Addr} {v : α} :
    ∀ {l : AList α}, a ∈ keysD (insertD k v l) → a = k ∨ a ∈ keysD l := by
  intro l
  induction l with
  | nil => intro h; simp [insertD, keysD] at h; exact Or.inl h
  | cons p t ih =>
    intro h
    by_cases hp : p.1 = k
    · rw [insertD, if_pos hp, keysD, List.map_cons, List.mem_cons] at h
      rcases h with h1 | h2
      · exact Or.inl h1
      · exact Or.inr (by rw [keysD, List.map_cons]; exact List.mem_cons_of_mem _ h2)
    · rw [insertD, if_neg hp, keysD, List.map_cons, List.mem_cons] at h
      rcases h with h1 | h2
      · exact Or.inr (by rw [keysD, List.map_cons, h1]; exact List.mem_cons_self _ _)
      · rcases ih h2 with h3 | h4
        · exact Or.inl h3
        · exact Or.inr (by rw [keysD, List.map_cons]; exact List.mem_cons_of_mem _ h4)

theorem nodupKeys_insertD {α : Type} {k : Addr} {v : α} :
    ∀ {l : AList α}, NodupKeys l → NodupKeys (insertD k v l) := by
  intro l
  induction l with
  | nil => intro _; simp [insertD, NodupKeys, keysD]
  | cons p t ih =>
    intro hn
    rw [NodupKeys, keysD, List.map_cons, List.nodup_cons] at hn
    by_cases hp : p.1 = k
    · rw [insertD, if_pos hp, NodupKeys, keysD, List.map_cons, List.nodup_cons]
      exact ⟨hp ▸ hn.1, hn.2⟩
    · rw [insertD, if_neg hp, NodupKeys, keysD, List.map_cons, List.nodup_cons]
      constructor
      · intro hmem
        rcases mem_keysD_insertD hmem with h1 | h2
        · exact hp h1
        · exact hn.1 h2
      · exact ih hn.2

theorem mem_insertD {α : Type} {p : Addr × α} {k : Addr} {v : α} :
    ∀ {l : AList α}, p ∈ insertD k v l → p = (k, v) ∨ p ∈ l := by
  intro l
  induction l with
  | nil => intro h; simp [insertD] at h; exact Or.inl h
  | cons q t ih =>
    intro h
    by_cases hq : q.1 = k
    · rw [insertD, if_pos hq] at h
      rcases List.mem_cons.mp h with h1 | h2
      · exact Or.inl h1
      · exact Or.inr (List.mem_cons_of_mem _ h2)
    · rw [insertD, if_neg hq] at h
      rcases List.mem_cons.mp h with h1 | h2
      · exact Or.inr (h1 ▸ List.mem_cons_self _ _)
      · rcases ih h2 with h3 | h4
        · exact Or.inl h3
        · exact Or.inr (List.mem_cons_of_mem _ h4)

theorem insertD_ne_nil {α : Type} (k : Addr) (v : α) (l : AList α) :
    insertD k v l ≠ [] := by
  cases l with
  | nil => simp [insertD]
  | cons p t =>
    rw [insertD]
    by_cases hp : p.1 = k
    · simp [hp]
    · simp [hp]

theorem mem_eraseD {α : Type} {p : Addr × α} {k : Addr} :
    ∀ {l : AList α}, p ∈ eraseD k l → p ∈ l := by
  intro l
  induction l with
  | nil => intro h; simp [eraseD] at h
  | cons q t ih =>
    intro h
    by_cases hq : q.1 = k
    · rw [eraseD, if_pos hq] at h
      exact List.mem_cons_of_mem _ h
    · rw [eraseD, if_neg hq] at h
      rcases List.mem_cons.mp h with h1 | h2
      · exact h1 ▸ List.mem_cons_self _ _
      · exact List.mem_cons_of_mem _ (ih h2)

theorem mem_keysD_eraseD {α : Type} {a k : Addr} :
    ∀ {l : AList α}, a ∈ keysD (eraseD k l) → a ∈ keysD l := by
  intro l h
  rw [keysD] at h
  rcases List.mem_map.mp h with ⟨p, hp, hpa⟩
  exact hpa ▸ List.mem_map.mpr ⟨p, mem_eraseD hp, rfl⟩

theorem nodupKeys_eraseD {α : Type} {k : Addr} :
    ∀ {l : AList α}, NodupKeys l → NodupKeys (eraseD k l) := by
  intro l
  induction l with
  | nil => intro h; simpa [eraseD] using h
  | cons p t ih =>
    intro hn
    rw [NodupKeys, keysD, List.map_cons, List.nodup_cons] at hn
    by_cases hp : p.1 = k
    · rw [eraseD, if_pos hp]; exact hn.2
    · rw [eraseD, if_neg hp, NodupKeys, keysD, List.map_cons, List.nodup_cons]
      exact ⟨fun hmem => hn.1 (mem_keysD_eraseD hmem), ih hn.2⟩

theorem lookupD_eraseD_self {α : Type} {k : Addr} :
    ∀ {l : AList α}, NodupKeys l → lookupD k (eraseD k l) = none := by
  intro l
  induction l with
  | nil => intro _; simp [eraseD, lookupD]
  | cons p t ih =>
    intro hn
    rw [NodupKeys, keysD, List.map_cons, List.nodup_cons] at hn
    by_cases hp : p.1 = k
    · rw [eraseD, if_pos hp]
      exact lookupD_eq_none_iff.mpr (hp ▸ hn.1)
    · rw [eraseD, if_neg hp, lookupD, if_neg hp]
      exact ih hn.2

theorem lookupD_eraseD_ne {α : Type} {k k' : Addr} (h : k' ≠ k) :
    ∀ {l : AList α}, lookupD k' (eraseD k l) = lookupD k' l := by
  intro l
  induction l with
  | nil => simp [eraseD]
  | cons p t ih =>
    by_cases hp : p.1 = k
    · rw [eraseD, if_pos hp, lookupD, if_neg (hp ▸ fun hh => h hh.symm)]
    · rw [eraseD, if_neg hp, lookupD]
      by_cases hp' : p.1 = k'
      · rw [if_pos hp', lookupD, if_pos hp']
      · rw [if_neg hp', lookupD, if_neg hp', ih]

theorem lookupD_mapVal {α β : Type} (g : α → β) (k : Addr) :
    ∀ (l : AList α),
      lookupD k (l.map (fun p => (p.1, g p.2))) = (lookupD k l).map g := by
  intro l
  induction l with
  | nil => simp [lookupD]
  | cons p t ih =>
    by_cases hp : p.1 = k
    · simp [lookupD, hp]
    · simp [lookupD, hp, ih]

theorem keysD_mapVal {α β : Type} (g : α → β) (l : AList α) :
    keysD (l.map (fun p => (p.1, g p.2))) = keysD l := by
  induction l with
  | nil => rfl
  | cons p t ih => simpa [keysD] using ih

theorem dictBeq_lookup {α : Type} [DecidableEq α] {a b : AList α}
    (h : dictBeq a b = true) : ∀ k, lookupD k a = lookupD k b := by
  intro k
  rw [dictBeq, Bool.and_eq_true, List.all_eq_true, List.all_eq_true] at h
  cases ha : lookupD k a with
  | some v =>
    have := h.1 (k, v) (lookupD_mem ha)
    exact (of_decide_eq_true this).symm
  | none =>
    cases hb : lookupD k b with
    | none => rfl
    | some w =>
      have h2 := of_decide_eq_true (h.2 (k, w) (lookupD_mem hb))
      rw [ha] at h2
      exact Option.noConfusion h2

theorem dictBeq_of_forall_lookup {α : Type} [DecidableEq α] {a b : AList α}
    (hna : NodupKeys a) (hnb : NodupKeys b)
    (h : ∀ k, lookupD k a = lookupD k b) : dictBeq a b = true := by
  rw [dictBeq, Bool.and_eq_true, List.all_eq_true, List.all_eq_true]
  constructor
  · intro p hp
    exact decide_eq_true ((h p.1).symm.trans (nodup_mem_lookupD hna hp))
  · intro p hp
    exact decide_eq_true ((h p.1).trans (nodup_mem_lookupD hnb hp))

theorem dictBeq_refl {α : Type} [DecidableEq α] {a : AList α}
    (hn : NodupKeys a) : dictBeq a a = true :=
  dictBeq_of_forall_lookup hn hn (fun _ => rfl)

/-
  Characterization of the Bellman-Ford scan of update_dv.
-/

theorem ite_lt_eq_min (a b : Cost) : (if b < a then b else a) = min a b := by
  by_cases h : b < a
  · rw [if_pos h, min_eq_right (le_of_lt h)]
  · rw [if_neg h, min_eq_left (le_of_not_lt h)]

theorem mcnh_foldl_fst (s : State) (dest : Addr) :
    ∀ (l : List (Addr × NeighborInfo)) (a : Cost × Option Addr),
      (l.foldl (mcnh_step s dest) a).1 =
        (l.map (fun p => estimate s p dest)).foldl min a.1 := by
  intro l
  induction l with
  | nil => intro a; rfl
  | cons p t ih =>
    intro a
    rw [List.foldl_cons, ih, List.map_cons, List.foldl_cons]
    have hstep : (mcnh_step s dest a p).1 = min a.1 (estimate s p dest) := by
      rw [mcnh_step]
      by_cases h : estimate s p dest < a.1
      · rw [if_pos h, min_eq_right (le_of_lt h)]
      · rw [if_neg h, min_eq_left (le_of_not_lt h)]
    rw [hstep]

theorem min_cost_next_hop_fst (s : State) (dest : Addr) :
    (min_cost_next_hop s dest).1 = specNewCost s dest := by
  rw [min_cost_next_hop, specNewCost, mcnh_foldl_fst]

theorem foldl_min_le_init (l : List Cost) : ∀ (a : Cost), l.foldl min a ≤ a := by
  induction l with
  | nil => intro a; exact le_refl a
  | cons x t ih =>
    intro a
    rw [List.foldl_cons]
    exact le_trans (ih (min a x)) (min_le_left a x)

theorem specNewCost_le (s : State) (d : Addr) : specNewCost s d ≤ INFINITY :=
  foldl_min_le_init _ INFINITY

theorem min_cost_next_hop_le (s : State) (d : Addr) :
    (min_cost_next_hop s d).1 ≤ INFINITY := by
  rw [min_cost_next_hop_fst]; exact specNewCost_le s d

theorem mcnh_foldl_achiever (s : State) (dest : Addr) :
    ∀ (l : List (Addr × NeighborInfo)) (a : Cost × Option Addr),
      l.foldl (mcnh_step s dest) a = a ∨
        ∃ p ∈ l, (l.foldl (mcnh_step s dest) a).2 = some p.1 ∧
          (l.foldl (mcnh_step s dest) a).1 = estimate s p dest := by
  intro l
  induction l with
  | nil => intro a; exact Or.inl rfl
  | cons p t ih =>
    intro a
    rw [List.foldl_cons]
    rcases ih (mcnh_step s dest a p) with h | ⟨q, hq, h1, h2⟩
    · by_cases hlt : estimate s p dest < a.1
      · refine Or.inr ⟨p, List.mem_cons_self _ _, ?_, ?_⟩
        · rw [h, mcnh_step, if_pos hlt]
        · rw [h, mcnh_step, if_pos hlt]
      · left
        rw [h, mcnh_step, if_neg hlt]
    · exact Or.inr ⟨q, List.mem_cons_of_mem _ hq, h1, h2⟩

theorem min_cost_next_hop_achieves (s : State) (dest : Addr)
    (h : (min_cost_next_hop s dest).1 < INFINITY) :
    ∃ p ∈ s.neighbors, (min_cost_next_hop s dest).2 = some p.1 ∧
      (min_cost_next_hop s dest).1 = estimate s p dest := by
  rcases mcnh_foldl_achiever s dest s.neighbors (INFINITY, none) with h0 | hex
  · rw [min_cost_next_hop] at h
    rw [h0] at h
    exact absurd h (lt_irrefl _)
  · exact hex

/-
  Characterization of the table built by the per-destination loop.
-/

theorem lookupD_nd_foldl (s : State) (d : Addr) :
    ∀ (cs : List Addr) (acc : AList (Cost × Option Addr)),
      lookupD d (cs.foldl (nd_step s) acc) =
        if d ∈ cs ∧ d ≠ s.addr ∧ min (min_cost_next_hop s d).1 INFINITY < INFINITY
        then some (min (min_cost_next_hop s d).1 INFINITY, (min_cost_next_hop s d).2)
        else lookupD d acc := by
  intro cs
  induction cs with
  | nil => intro acc; simp
  | cons c t ih =>
    intro acc
    rw [List.foldl_cons, ih]
    by_cases hdc : d = c
    · subst hdc
      by_cases hda : d = s.addr
      · have hstep : nd_step s acc d = acc := by rw [nd_step, if_pos hda]
        rw [hstep]
        simp [hda]
      · by_cases hm : min (min_cost_next_hop s d).1 INFINITY < INFINITY
        · have hstep : nd_step s acc d =
              insertD d (min (min_cost_next_hop s d).1 INFINITY,
                (min_cost_next_hop s d).2) acc := by
            rw [nd_step, if_neg hda]
            exact if_pos hm
          by_cases hmem : d ∈ t
          · simp [hmem, hda, hm]
          · rw [if_neg (fun hc => hmem hc.1),
              if_pos ⟨List.mem_cons_self d t, hda, hm⟩, hstep,
              lookupD_insertD_self]
        · have hstep : nd_step s acc d = acc := by
            rw [nd_step, if_neg hda]
            exact if_neg hm
          rw [hstep]
          simp [hm]
    · have hacc : lookupD d (nd_step s acc c) = lookupD d acc := by
        rw [nd_step]
        by_cases hca : c = s.addr
        · rw [if_pos hca]
        · rw [if_neg hca]
          by_cases hm : min (min_cost_next_hop s c).1 INFINITY < INFINITY
          · rw [if_pos hm]
            exact lookupD_insertD_ne hdc _ acc
          · rw [if_neg hm]
      rw [hacc]
      by_cases hmem : d ∈ t
      · simp [hmem, List.mem_cons, hdc]
      · simp [hmem, List.mem_cons, hdc]

theorem lookupD_new_dv_self (s : State) :
    lookupD s.addr (new_dv_of s) = some (0, some s.addr) := by
  rw [new_dv_of, lookupD_nd_foldl]
  simp [lookupD]

theorem lookupD_new_dv (s : State) (d : Addr) (hd : d ≠ s.addr) :
    lookupD d (new_dv_of s) =
      if d ∈ dv_candidates s ∧ specNewCost s d < INFINITY
      then some (specNewCost s d, (min_cost_next_hop s d).2)
      else none := by
  have hclamp : min (min_cost_next_hop s d).1 INFINITY = specNewCost s d := by
    rw [min_eq_left (min_cost_next_hop_le s d), min_cost_next_hop_fst]
  rw [new_dv_of, lookupD_nd_foldl, hclamp]
  have hd' : s.addr ≠ d := Ne.symm hd
  have hnone : lookupD d [(s.addr, ((0 : Cost), some s.addr))] = none := by
    simp [lookupD, hd']
  by_cases hmem : d ∈ dv_candidates s
  · by_cases hm : specNewCost s d < INFINITY
    · rw [if_pos ⟨hmem, hd, hm⟩, if_pos ⟨hmem, hm⟩]
    · rw [if_neg (by simp [hm]), if_neg (by simp [hm]), hnone]
  · rw [if_neg (by simp [hmem]), if_neg (by simp [hmem]), hnone]

theorem nodupKeys_nd_foldl (s : State) :
    ∀ (cs : List Addr) (acc : AList (Cost × Option Addr)),
      NodupKeys acc → NodupKeys (cs.foldl (nd_step s) acc) := by
  intro cs
  induction cs with
  | nil => intro acc h; exact h
  | cons c t ih =>
    intro acc h
    rw [List.foldl_cons]
    apply ih
    rw [nd_step]
    by_cases hca : c = s.addr
    · rw [if_pos hca]; exact h
    · rw [if_neg hca]
      by_cases hm : min (min_cost_next_hop s c).1 INFINITY < INFINITY
      · rw [if_pos hm]; exact nodupKeys_insertD h
      · rw [if_neg hm]; exact h

theorem nodupKeys_new_dv (s : State) : NodupKeys (new_dv_of s) := by
  rw [new_dv_of]
  exact nodupKeys_nd_foldl s _ _ (by simp [NodupKeys, keysD])

/-
  Cost bounds of the recomputed table.
-/

theorem estimate_nonneg (s : State) (p : Addr × NeighborInfo) (d : Addr)
    (hc : 0 ≤ p.2.cost)
    (ha : ∀ q ∈ s.neighbor_dvs, ∀ r ∈ q.2, 0 ≤ r.2) :
    0 ≤ estimate s p d := by
  rw [estimate]
  refine add_nonneg hc ?_
  by_cases hdp : d = p.1
  · simp [hdp]
  · rw [if_neg hdp]
    cases hq : lookupD p.1 s.neighbor_dvs with
    | none => simp [lookupD, INFINITY]
    | some l =>
      cases hr : lookupD d l with
      | none => simp [hr, INFINITY]
      | some w =>
        simp only [Option.getD_some, hr]
        exact ha (p.1, l) (lookupD_mem hq) (d, w) (lookupD_mem hr)

theorem mcnh_foldl_nonneg (s : State) (d : Addr) :
    ∀ (l : List (Addr × NeighborInfo)) (a : Cost × Option Addr),
      0 ≤ a.1 → (∀ p ∈ l, 0 ≤ estimate s p d) →
      0 ≤ (l.foldl (mcnh_step s d) a).1 := by
  intro l
  induction l with
  | nil => intro a h _; exact h
  | cons p t ih =>
    intro a ha hl
    rw [List.foldl_cons]
    refine ih _ ?_ (fun q hq => hl q (List.mem_cons_of_mem _ hq))
    rw [mcnh_step]
    by_cases hlt : estimate s p d < a.1
    · rw [if_pos hlt]
      exact hl p (List.mem_cons_self _ _)
    · rw [if_neg hlt]
      exact ha

theorem min_cost_next_hop_nonneg (s : State) (d : Addr)
    (hn : ∀ p ∈ s.neighbors, 0 ≤ p.2.cost)
    (ha : ∀ q ∈ s.neighbor_dvs, ∀ r ∈ q.2, 0 ≤ r.2) :
    0 ≤ (min_cost_next_hop s d).1 := by
  rw [min_cost_next_hop]
  exact mcnh_foldl_nonneg s d s.neighbors (INFINITY, none) (by norm_num [INFINITY])
    (fun p hp => estimate_nonneg s p d (hn p hp) ha)

theorem nd_foldl_mem_bound (s : State)
    (hn : ∀ p ∈ s.neighbors, 0 ≤ p.2.cost)
    (ha : ∀ q ∈ s.neighbor_dvs, ∀ r ∈ q.2, 0 ≤ r.2) :
    ∀ (cs : List Addr) (acc : AList (Cost × Option Addr)),
      (∀ p ∈ acc, 0 ≤ p.2.1 ∧ p.2.1 ≤ INFINITY) →
      ∀ p ∈ cs.foldl (nd_step s) acc, 0 ≤ p.2.1 ∧ p.2.1 ≤ INFINITY := by
  intro cs
  induction cs with
  | nil => intro acc h; exact h
  | cons c t ih =>
    intro acc h
    rw [List.foldl_cons]
    refine ih _ ?_
    intro p hp
    rw [nd_step] at hp
    by_cases hca : c = s.addr
    · rw [if_pos hca] at hp
      exact h p hp
    · rw [if_neg hca] at hp
      by_cases hm : min (min_cost_next_hop s c).1 INFINITY < INFINITY
      · rw [if_pos hm] at hp
        rcases mem_insertD hp with h1 | h2
        · subst h1
          constructor
          · exact le_min (min_cost_next_hop_nonneg s c hn ha) (by norm_num [INFINITY])
          · exact min_le_right _ _
        · exact h p h2
      · rw [if_neg hm] at hp
        exact h p hp

theorem new_dv_mem_bound (s : State)
    (hn : ∀ p ∈ s.neighbors, 0 ≤ p.2.cost)
    (ha : ∀ q ∈ s.neighbor_dvs, ∀ r ∈ q.2, 0 ≤ r.2) :
    ∀ p ∈ new_dv_of s, 0 ≤ p.2.1 ∧ p.2.1 ≤ INFINITY := by
  rw [new_dv_of]
  refine nd_foldl_mem_bound s hn ha _ _ ?_
  intro p hp
  rcases List.mem_singleton.mp hp with h1
  subst h1
  norm_num [INFINITY]

/-
  Structure of the result of update_dv.
-/

theorem update_dv_eq_of_beq (s : State)
    (h : dictBeq (new_dv_of s) s.distance_vector = true) :
    update_dv s = (s, []) := by
  rw [update_dv, if_pos h]

theorem update_dv_eq_of_ne (s : State)
    (h : ¬ dictBeq (new_dv_of s) s.distance_vector = true) :
    update_dv s =
      ({ s with distance_vector := new_dv_of s },
       broadcast_dv { s with distance_vector := new_dv_of s }) := by
  rw [update_dv, if_neg h]

theorem update_dv_fst_lookup (s : State) (d : Addr) :
    lookupD d (update_dv s).1.distance_vector = lookupD d (new_dv_of s) := by
  by_cases h : dictBeq (new_dv_of s) s.distance_vector = true
  · rw [update_dv_eq_of_beq s h]
    exact (dictBeq_lookup h d).symm
  · rw [update_dv_eq_of_ne s h]

theorem update_dv_addr (s : State) : (update_dv s).1.addr = s.addr := by
  rw [update_dv]; split <;> rfl

theorem update_dv_neighbors (s : State) :
    (update_dv s).1.neighbors = s.neighbors := by
  rw [update_dv]; split <;> rfl

theorem update_dv_neighbor_dvs (s : State) :
    (update_dv s).1.neighbor_dvs = s.neighbor_dvs := by
  rw [update_dv]; split <;> rfl

theorem update_dv_nodup_dv (s : State) (h : NodupKeys s.distance_vector) :
    NodupKeys (update_dv s).1.distance_vector := by
  rw [update_dv]; split
  · exact h
  · exact nodupKeys_new_dv s

theorem update_dv_mem_dv (s : State) :
    ∀ p ∈ (update_dv s).1.distance_vector,
      p ∈ new_dv_of s ∨ p ∈ s.distance_vector := by
  rw [update_dv]; split
  · intro p hp; exact Or.inr hp
  · intro p hp; exact Or.inl hp

/-
  The well-formedness invariant of reachable states: duplicate-free dict
  keys, the immutable self route, and finite routes pointing at live
  neighbors (the latter is the invariant of claim C5, which holds for every
  destination other than self).
-/

def LiveNextHops (s : State) : Prop :=
  ∀ d c nh, lookupD d s.distance_vector = some (c, nh) → d ≠ s.addr →
    c < INFINITY → ∃ nb, nh = some nb ∧ (lookupD nb s.neighbors).isSome = true

def WF (s : State) : Prop :=
  NodupKeys s.neighbors ∧ NodupKeys s.neighbor_dvs ∧
    NodupKeys s.distance_vector ∧
    lookupD s.addr s.distance_vector = some (0, some s.addr) ∧ LiveNextHops s

theorem update_dv_WF (s : State) (h1 : NodupKeys s.neighbors)
    (h2 : NodupKeys s.neighbor_dvs) (h3 : NodupKeys s.distance_vector) :
    WF (update_dv s).1 := by
  refine ⟨?_, ?_, ?_, ?_, ?_⟩
  · rw [update_dv_neighbors]; exact h1
  · rw [update_dv_neighbor_dvs]; exact h2
  · exact update_dv_nodup_dv s h3
  · rw [update_dv_addr, update_dv_fst_lookup, lookupD_new_dv_self]
  · intro d c nh hl hd hc
    rw [update_dv_fst_lookup] at hl
    rw [update_dv_addr] at hd
    have hchar := lookupD_new_dv s d hd
    rw [hl] at hchar
    by_cases hcond : d ∈ dv_candidates s ∧ specNewCost s d < INFINITY
    · rw [if_pos hcond] at hchar
      have hpair := Option.some.inj hchar
      have hnh : nh = (min_cost_next_hop s d).2 := congrArg Prod.snd hpair
      have hlt : (min_cost_next_hop s d).1 < INFINITY := by
        rw [min_cost_next_hop_fst]; exact hcond.2
      obtain ⟨p, hp, hp2, _⟩ := min_cost_next_hop_achieves s d hlt
      refine ⟨p.1, by rw [hnh, hp2], ?_⟩
      rw [update_dv_neighbors]
      exact mem_lookupD_isSome hp
    · rw [if_neg hcond] at hchar
      exact Option.noConfusion hchar

theorem WF_init (addr : Addr) (hb : Int) : WF (init addr hb) := by
  refine ⟨by simp [init, NodupKeys, keysD], by simp [init, NodupKeys, keysD],
    by simp [init, NodupKeys, keysD], by simp [init, lookupD], ?_⟩
  intro d c nh hl hd _
  have had : addr ≠ d :=
    fun hh => hd (show d = (init addr hb).addr from hh.symm)
  simp only [init, lookupD] at hl
  rw [if_neg had] at hl
  exact Option.noConfusion hl

theorem WF_step (s : State) (e : Event) (h : WF s) : WF (stepS s e) := by
  obtain ⟨h1, h2, h3, h4, h5⟩ := h
  cases e with
  | packet port pkt =>
    obtain ⟨kind, src, dst, content⟩ := pkt
    cases kind with
    | traceroute => exact ⟨h1, h2, h3, h4, h5⟩
    | routing =>
      cases content with
      | none => exact ⟨h1, h2, h3, h4, h5⟩
      | some dv =>
        show WF (if (lookupD src s.neighbors).isSome = true
          then update_dv { s with neighbor_dvs := insertD src dv s.neighbor_dvs }
          else (s, [])).1
        by_cases hsrc : (lookupD src s.neighbors).isSome = true
        · rw [if_pos hsrc]
          exact update_dv_WF _ h1 (nodupKeys_insertD h2) h3
        · rw [if_neg hsrc]
          exact ⟨h1, h2, h3, h4, h5⟩
  | new_link port endpoint cost =>
    exact update_dv_WF _ (nodupKeys_insertD h1) (nodupKeys_insertD h2) h3
  | remove_link port =>
    cases hf : s.neighbors.find? (fun p => p.2.port == port) with
    | none =>
      have : stepS s (Event.remove_link port) = s := by
        rw [stepS, step, handle_remove_link, hf]
      rw [this]
      exact ⟨h1, h2, h3, h4, h5⟩
    | some q =>
      have hs : stepS s (Event.remove_link port) =
          (if q.1 ≠ 0 then
            update_dv { s with
              neighbors := eraseD q.1 s.neighbors
              neighbor_dvs := eraseD q.1 s.neighbor_dvs
              distance_vector := s.distance_vector.map
                (fun p => (p.1, invalidate_route q.1 p.2)) }
          else (s, [])).1 := by
        rw [stepS, step, handle_remove_link, hf]
      rw [hs]
      by_cases hq : q.1 ≠ 0
      · rw [if_pos hq]
        refine update_dv_WF _ (nodupKeys_eraseD h1) (nodupKeys_eraseD h2) ?_
        show NodupKeys (s.distance_vector.map
          (fun p => (p.1, invalidate_route q.1 p.2)))
        rw [NodupKeys, keysD_mapVal]
        exact h3
      · rw [if_neg hq]
        exact ⟨h1, h2, h3, h4, h5⟩
  | time t =>
    show WF (if s.heartbeat_time ≤ t - s.last_time
      then ({ s with last_time := t }, broadcast_dv s) else (s, [])).1
    split
    · exact ⟨h1, h2, h3, h4, h5⟩
    · exact ⟨h1, h2, h3, h4, h5⟩

theorem wf_reachable {P : Event → Prop} {s : State} (h : Reachable P s) :
    WF s := by
  induction h with
  | start addr hb => exact WF_init addr hb
  | step s e _ _ ih => exact WF_step s e ih

/-
  The cost-range invariant, preserved under non-negative link costs and
  non-negative advertised costs.
-/

def CostBounds (s : State) : Prop :=
  (∀ p ∈ s.distance_vector, 0 ≤ p.2.1 ∧ p.2.1 ≤ INFINITY) ∧
    (∀ p ∈ s.neighbors, 0 ≤ p.2.cost) ∧
    (∀ q ∈ s.neighbor_dvs, ∀ r ∈ q.2, 0 ≤ r.2)

theorem update_dv_CostBounds (s : State) (h : CostBounds s) :
    CostBounds (update_dv s).1 := by
  obtain ⟨hd, hn, ha⟩ := h
  refine ⟨?_, ?_, ?_⟩
  · intro p hp
    rcases update_dv_mem_dv s p hp with h1 | h2
    · exact new_dv_mem_bound s hn ha p h1
    · exact hd p h2
  · rw [update_dv_neighbors]; exact hn
  · rw [update_dv_neighbor_dvs]; exact ha

theorem CostBounds_init (addr : Addr) (hb : Int) : CostBounds (init addr hb) := by
  refine ⟨?_, ?_, ?_⟩
  · intro p hp
    rcases List.mem_singleton.mp hp with h1
    subst h1
    norm_num [INFINITY]
  · intro p hp; simp [init] at hp
  · intro q hq; simp [init] at hq

theorem CostBounds_step (s : State) (e : Event) (he : eventNN e = true)
    (h : CostBounds s) : CostBounds (stepS s e) := by
  obtain ⟨hd, hn, ha⟩ := h
  cases e with
  | packet port pkt =>
    obtain ⟨kind, src, dst, content⟩ := pkt
    cases kind with
    | traceroute => exact ⟨hd, hn, ha⟩
    | routing =>
      cases content with
      | none => exact ⟨hd, hn, ha⟩
      | some dv =>
        have hdv : ∀ r ∈ dv, 0 ≤ r.2 := by
          rw [eventNN, Bool.and_eq_true] at he
          have h2 := he.2
          simp only [eventAdvertsNN] at h2
          intro r hr
          exact of_decide_eq_true (List.all_eq_true.mp h2 r hr)
        show CostBounds (if (lookupD src s.neighbors).isSome = true
          then update_dv { s with neighbor_dvs := insertD src dv s.neighbor_dvs }
          else (s, [])).1
        by_cases hsrc : (lookupD src s.neighbors).isSome = true
        · rw [if_pos hsrc]
          refine update_dv_CostBounds _ ⟨hd, hn, ?_⟩
          intro q hq
          rcases mem_insertD hq with h1 | h2
          · subst h1; exact hdv
          · exact ha q h2
        · rw [if_neg hsrc]
          exact ⟨hd, hn, ha⟩
  | new_link port endpoint cost =>
    have hcost : 0 ≤ cost := by
      rw [eventNN, Bool.and_eq_true] at he
      have h1 := he.1
      simp only [eventLinkCostsNN] at h1
      exact of_decide_eq_true h1
    refine update_dv_CostBounds _ ⟨hd, ?_, ?_⟩
    · intro p hp
      rcases mem_insertD hp with h1 | h2
      · subst h1; exact hcost
      · exact hn p h2
    · intro q hq
      rcases mem_insertD hq with h1 | h2
      · subst h1; intro r hr; simp at hr
      · exact ha q h2
  | remove_link port =>
    cases hf : s.neighbors.find? (fun p => p.2.port == port) with
    | none =>
      have hs : stepS s (Event.remove_link port) = s := by
        rw [stepS, step, handle_remove_link, hf]
      rw [hs]
      exact ⟨hd, hn, ha⟩
    | some q =>
      have hs : stepS s (Event.remove_link port) =
          (if q.1 ≠ 0 then
            update_dv { s with
              neighbors := eraseD q.1 s.neighbors
              neighbor_dvs := eraseD q.1 s.neighbor_dvs
              distance_vector := s.distance_vector.map
                (fun p => (p.1, invalidate_route q.1 p.2)) }
          else (s, [])).1 := by
        rw [stepS, step, handle_remove_link, hf]
      rw [hs]
      by_cases hq : q.1 ≠ 0
      · rw [if_pos hq]
        refine update_dv_CostBounds _ ⟨?_, ?_, ?_⟩
        · intro p hp
          rcases List.mem_map.mp hp with ⟨r, hr, hrp⟩
          subst hrp
          show 0 ≤ (invalidate_route q.1 r.2).1 ∧ (invalidate_route q.1 r.2).1 ≤ INFINITY
          rw [invalidate_route]
          by_cases hc : r.2.2 = some q.1
          · rw [if_pos hc]; norm_num [INFINITY]
          · rw [if_neg hc]; exact hd r hr
        · intro p hp; exact hn p (mem_eraseD hp)
        · intro p hp; exact ha p (mem_eraseD hp)
      · rw [if_neg hq]
        exact ⟨hd, hn, ha⟩
  | time t =>
    show CostBounds (if s.heartbeat_time ≤ t - s.last_time
      then ({ s with last_time := t }, broadcast_dv s) else (s, [])).1
    split
    · exact ⟨hd, hn, ha⟩
    · exact ⟨hd, hn, ha⟩

theorem costBounds_reachable {s : State}
    (h : Reachable (fun e => eventNN e = true) s) : CostBounds s := by
  induction h with
  | start addr hb => exact CostBounds_init addr hb
  | step s e _ hP ih => exact CostBounds_step s e hP ih

/-
  Lookup characterization of the poisoned-reverse payload.
-/

theorem poison_foldl_nomem (v d : Addr) :
    ∀ (l : AList (Cost × Option Addr)) (acc : AList Cost),
      (∀ p ∈ l, p.1 = d → ¬(p.2.2 = some v ∧ p.1 ≠ v)) →
      lookupD d (l.foldl (poison_step v) acc) = lookupD d acc := by
  intro l
  induction l with
  | nil => intro acc _; rfl
  | cons q t ih =>
    intro acc h
    rw [List.foldl_cons, ih _ (fun p hp => h p (List.mem_cons_of_mem _ hp))]
    rw [poison_step]
    by_cases hc : q.2.2 = some v ∧ q.1 ≠ v
    · rw [if_pos hc]
      have hqd : q.1 ≠ d := fun hh => h q (List.mem_cons_self _ _) hh hc
      exact lookupD_insertD_ne (Ne.symm hqd) _ acc
    · rw [if_neg hc]

theorem poison_foldl_mem (v d : Addr) :
    ∀ (l : AList (Cost × Option Addr)) (acc : AList Cost), NodupKeys l →
      ∀ p0 ∈ l, p0.1 = d → p0.2.2 = some v → p0.1 ≠ v →
      lookupD d (l.foldl (poison_step v) acc) = some INFINITY := by
  intro l
  induction l with
  | nil => intro acc _ p0 h; simp at h
  | cons q t ih =>
    intro acc hn p0 hp0 hd1 hd2 hd3
    rw [NodupKeys, keysD, List.map_cons, List.nodup_cons] at hn
    rw [List.foldl_cons]
    rcases List.mem_cons.mp hp0 with h1 | h2
    · have hq1 : q.1 = d := by rw [← h1]; exact hd1
      have hq2 : q.2.2 = some v := by rw [← h1]; exact hd2
      have hq3 : q.1 ≠ v := by rw [← h1]; exact hd3
      have hnone : ∀ p ∈ t, p.1 = d → ¬(p.2.2 = some v ∧ p.1 ≠ v) := by
        intro p hp hpd _
        apply hn.1
        rw [hq1, ← hpd]
        exact List.mem_map.mpr ⟨p, hp, rfl⟩
      rw [poison_foldl_nomem v d t _ hnone, poison_step, if_pos ⟨hq2, hq3⟩,
        ← hq1, lookupD_insertD_self]
    · exact ih _ hn.2 p0 h2 hd1 hd2 hd3

theorem lookupD_get_dv (dv : AList (Cost × Option Addr)) (d : Addr) :
    lookupD d (get_dv_for_broadcast dv) = (lookupD d dv).map (fun e => e.1) := by
  rw [get_dv_for_broadcast]
  exact lookupD_mapVal (fun e => e.1) d dv

theorem lookupD_dv_to_send (dv : AList (Cost × Option Addr))
    (hn : NodupKeys dv) (v d : Addr) :
    lookupD d (dv_to_send_for dv v) =
      (lookupD d dv).map
        (fun e => if e.2 = some v ∧ d ≠ v then INFINITY else e.1) := by
  rw [dv_to_send_for]
  cases hl : lookupD d dv with
  | none =>
    have hmem : ∀ p ∈ dv, p.1 = d → ¬(p.2.2 = some v ∧ p.1 ≠ v) := by
      intro p hp hpd _
      have hsome : (lookupD d dv).isSome = true := by
        rw [← hpd]
        exact mem_lookupD_isSome hp
      rw [hl] at hsome
      exact Bool.noConfusion hsome
    rw [poison_foldl_nomem v d dv _ hmem, lookupD_get_dv, hl]
    rfl
  | some e =>
    by_cases hc : e.2 = some v ∧ d ≠ v
    · rw [poison_foldl_mem v d dv _ hn (d, e) (lookupD_mem hl) rfl hc.1 hc.2]
      simp [hc]
    · have hmem : ∀ p ∈ dv, p.1 = d → ¬(p.2.2 = some v ∧ p.1 ≠ v) := by
        intro p hp hpd
        have hlp : lookupD p.1 dv = some p.2 := nodup_mem_lookupD hn hp
        rw [hpd, hl] at hlp
        have hpe : p.2 = e := Option.some.inj hlp.symm
        rw [hpd, hpe]
        exact hc
      rw [poison_foldl_nomem v d dv _ hmem, lookupD_get_dv, hl]
      simp [hc]

/-
  Claim theorems.
-/

/-- C1: update_dv realizes the Bellman-Ford recomputation: for every
candidate destination d other than self, newCost(d) is the minimum over all
current neighbors v of estimate(v,d) = c(x,v) + advertisedCost(v,d), clamped
to at most INFINITY (specNewCost); when that minimum is below INFINITY the
committed table maps d to it together with a neighbor achieving it as next
hop, and when it equals INFINITY destination d is omitted from the table. -/
theorem update_dv_computes_bellman_ford (s : State) (d : Addr)
    (hd : d ≠ s.addr) (hcand : d ∈ dv_candidates s) :
    (specNewCost s d < INFINITY →
      ∃ p ∈ s.neighbors, estimate s p d = specNewCost s d ∧
        lookupD d (update_dv s).1.distance_vector =
          some (specNewCost s d, some p.1)) ∧
    (specNewCost s d = INFINITY →
      lookupD d (update_dv s).1.distance_vector = none) := by
  constructor
  · intro hlt
    have hmc : (min_cost_next_hop s d).1 < INFINITY := by
      rw [min_cost_next_hop_fst]; exact hlt
    obtain ⟨p, hp, hp2, hp1⟩ := min_cost_next_hop_achieves s d hmc
    refine ⟨p, hp, ?_, ?_⟩
    · rw [← min_cost_next_hop_fst, hp1]
    · rw [update_dv_fst_lookup, lookupD_new_dv s d hd,
        if_pos ⟨hcand, hlt⟩, hp2]
  · intro heq
    have hcond : ¬ (d ∈ dv_candidates s ∧ specNewCost s d < INFINITY) := by
      intro hcond
      rw [heq] at hcond
      exact absurd hcond.2 (lt_irrefl _)
    rw [update_dv_fst_lookup, lookupD_new_dv s d hd, if_neg hcond]

/-- C1 witness: in linked_state, destination 1 is a candidate; its minimum
estimate is achieved by neighbor 1 and stored in the committed table. -/
theorem update_dv_computes_bellman_ford_witness :
    ∃ p ∈ linked_state.neighbors,
      estimate linked_state p 1 = specNewCost linked_state 1 ∧
        lookupD 1 (update_dv linked_state).1.distance_vector =
          some (specNewCost linked_state 1, some p.1) :=
  (update_dv_computes_bellman_ford linked_state 1 (by decide) (by decide)).1
    (by decide)

/-- C3: broadcast_dv sends exactly one routing packet per current neighbor
(in neighbor order), carrying as payload the table as a destination-to-cost
mapping, where every destination d ≠ v whose next hop is v is overridden to
INFINITY for the packet sent to v, and every other destination (including
d = v) carries its true table cost. -/
theorem broadcast_dv_poisoned_reverse (s : State)
    (hn : NodupKeys s.distance_vector) :
    List.Forall₂ (fun (q : Addr × NeighborInfo) (snd : Port × Packet) =>
        snd.1 = q.2.port ∧ snd.2.kind = PKind.routing ∧
        snd.2.src_addr = s.addr ∧ snd.2.dst_addr = q.1 ∧
        ∃ payload, snd.2.content = some payload ∧
          ∀ d, lookupD d payload =
            (lookupD d s.distance_vector).map
              (fun e => if e.2 = some q.1 ∧ d ≠ q.1 then INFINITY else e.1))
      s.neighbors (broadcast_dv s) := by
  rw [broadcast_dv, broadcast_core, List.forall₂_map_right_iff,
    List.forall₂_same]
  intro q _
  exact ⟨rfl, rfl, rfl, rfl, dv_to_send_for s.distance_vector q.1, rfl,
    fun d => lookupD_dv_to_send s.distance_vector hn q.1 d⟩

/-- C3 witness: the poisoned-reverse broadcast characterization evaluated at
linked_state. -/
theorem broadcast_dv_poisoned_reverse_witness :
    List.Forall₂ (fun (q : Addr × NeighborInfo) (snd : Port × Packet) =>
        snd.1 = q.2.port ∧ snd.2.kind = PKind.routing ∧
        snd.2.src_addr = linked_state.addr ∧ snd.2.dst_addr = q.1 ∧
        ∃ payload, snd.2.content = some payload ∧
          ∀ d, lookupD d payload =
            (lookupD d linked_state.distance_vector).map
              (fun e => if e.2 = some q.1 ∧ d ≠ q.1 then INFINITY else e.1))
      linked_state.neighbors (broadcast_dv linked_state) :=
  broadcast_dv_poisoned_reverse linked_state (by decide)

/-- C4: update_dv commits and broadcasts exactly when the recomputed table
differs from the previous one at some destination other than self (given the
immutable self entry); when the tables agree everywhere off self, it returns
the state unchanged with no sends. -/
theorem update_dv_change_detection (s : State)
    (hn : NodupKeys s.distance_vector)
    (hself : lookupD s.addr s.distance_vector = some (0, some s.addr)) :
    ((∀ d, d ≠ s.addr →
        lookupD d s.distance_vector = lookupD d (new_dv_of s)) →
      update_dv s = (s, [])) ∧
    ((∃ d, d ≠ s.addr ∧
        lookupD d s.distance_vector ≠ lookupD d (new_dv_of s)) →
      (update_dv s).1.distance_vector = new_dv_of s ∧
        (update_dv s).2 = broadcast_dv (update_dv s).1) := by
  constructor
  · intro hall
    apply update_dv_eq_of_beq
    apply dictBeq_of_forall_lookup (nodupKeys_new_dv s) hn
    intro k
    by_cases hk : k = s.addr
    · subst hk
      rw [lookupD_new_dv_self, hself]
    · exact (hall k hk).symm
  · rintro ⟨d, hd, hne⟩
    have hb : ¬ dictBeq (new_dv_of s) s.distance_vector = true := by
      intro hbeq
      exact hne (dictBeq_lookup hbeq d).symm
    rw [update_dv_eq_of_ne s hb]
    exact ⟨rfl, rfl⟩

/-- C4 witness: linked_state is already converged, so update_dv returns it
unchanged with no sends. -/
theorem update_dv_change_detection_witness :
    update_dv linked_state = (linked_state, []) :=
  (update_dv_change_detection linked_state (by decide) (by decide)).1
    (fun d hd => rfl)

/-- C9: update_dv is idempotent: run again on the committed result (neighbor
set and advertisements unchanged), it returns the identical table and emits
no broadcast. -/
theorem update_dv_idempotent (s : State) :
    update_dv (update_dv s).1 = ((update_dv s).1, []) := by
  by_cases h : dictBeq (new_dv_of s) s.distance_vector = true
  · rw [update_dv_eq_of_beq s h]
    exact update_dv_eq_of_beq s h
  · rw [update_dv_eq_of_ne s h]
    show update_dv { s with distance_vector := new_dv_of s } =
      ({ s with distance_vector := new_dv_of s }, [])
    apply update_dv_eq_of_beq
    show dictBeq (new_dv_of s) (new_dv_of s) = true
    exact dictBeq_refl (nodupKeys_new_dv s)

theorem forward_sends_none (s : State) (packet : Packet)
    (h : lookupD packet.dst_addr s.distance_vector = none) :
    forward_sends s packet = [] := by
  rw [forward_sends, h]

theorem forward_sends_some (s : State) (packet : Packet) (c : Cost)
    (nh : Option Addr)
    (h : lookupD packet.dst_addr s.distance_vector = some (c, nh)) :
    forward_sends s packet =
      if c < INFINITY then
        match nh with
        | some v =>
          match lookupD v s.neighbors with
          | some info => [(info.port, packet)]
          | none => []
        | none => []
      else [] := by
  rw [forward_sends, h]

theorem forward_sends_drop_inf (s : State) (packet : Packet) (c : Cost)
    (nh : Option Addr)
    (h : lookupD packet.dst_addr s.distance_vector = some (c, nh))
    (hc : ¬ c < INFINITY) : forward_sends s packet = [] := by
  rw [forward_sends_some s packet c nh h, if_neg hc]

theorem forward_sends_drop_dead (s : State) (packet : Packet) (c : Cost)
    (h : lookupD packet.dst_addr s.distance_vector = some (c, none)) :
    forward_sends s packet = [] := by
  rw [forward_sends_some s packet c none h]
  by_cases hc : c < INFINITY
  · rw [if_pos hc]
  · rw [if_neg hc]

theorem forward_sends_drop_unknown (s : State) (packet : Packet) (c : Cost)
    (nb : Addr)
    (h : lookupD packet.dst_addr s.distance_vector = some (c, some nb))
    (hi : lookupD nb s.neighbors = none) : forward_sends s packet = [] := by
  rw [forward_sends_some s packet c (some nb) h]
  by_cases hc : c < INFINITY
  · rw [if_pos hc]
    show (match lookupD nb s.neighbors with
      | some info => [(info.port, packet)]
      | none => ([] : List (Port × Packet))) = []
    rw [hi]
  · rw [if_neg hc]

theorem forward_sends_forward (s : State) (packet : Packet) (c : Cost)
    (nb : Addr) (info : NeighborInfo)
    (h : lookupD packet.dst_addr s.distance_vector = some (c, some nb))
    (hc : c < INFINITY) (hi : lookupD nb s.neighbors = some info) :
    forward_sends s packet = [(info.port, packet)] := by
  rw [forward_sends_some s packet c (some nb) h, if_pos hc]
  show (match lookupD nb s.neighbors with
    | some info => [(info.port, packet)]
    | none => ([] : List (Port × Packet))) = [(info.port, packet)]
  rw [hi]

/-- C8: for data packets the handler leaves the state (all three data
structures) unchanged; it sends nothing when the destination is absent, has
cost INFINITY, or has a next hop that is not a live neighbor, and otherwise
forwards the packet unmodified out the port recorded for the next hop.
The cost bound c ≤ INFINITY is the spec's data-model clamp. -/
theorem handle_packet_forwarding (s : State) (port : Port) (packet : Packet)
    (hk : packet.kind = PKind.traceroute) :
    (handle_packet s port packet).1 = s ∧
    (lookupD packet.dst_addr s.distance_vector = none →
      (handle_packet s port packet).2 = []) ∧
    (∀ c nh, lookupD packet.dst_addr s.distance_vector = some (c, nh) →
      (c ≤ INFINITY →
        (c = INFINITY ∨ nh = none ∨
          (∀ nb, nh = some nb → lookupD nb s.neighbors = none)) →
        (handle_packet s port packet).2 = []) ∧
      (∀ nb info, c < INFINITY → nh = some nb →
        lookupD nb s.neighbors = some info →
        (handle_packet s port packet).2 = [(info.port, packet)])) := by
  obtain ⟨kind, src, dst, content⟩ := packet
  have hk' : kind = PKind.traceroute := hk
  subst hk'
  refine ⟨rfl, ?_, ?_⟩
  · intro hnone
    exact forward_sends_none s _ hnone
  · intro c nh hsome
    constructor
    · intro hle hdrop
      show forward_sends s (Packet.mk PKind.traceroute src dst content) = []
      rcases hdrop with h16 | hnone' | hnolive
      · exact forward_sends_drop_inf s _ c nh hsome
          (by rw [h16]; exact lt_irrefl _)
      · rw [hnone'] at hsome
        exact forward_sends_drop_dead s _ c hsome
      · cases nh with
        | none => exact forward_sends_drop_dead s _ c hsome
        | some nb =>
          exact forward_sends_drop_unknown s _ c nb hsome (hnolive nb rfl)
    · intro nb info hc hnb hinfo
      show forward_sends s (Packet.mk PKind.traceroute src dst content) =
        [(info.port, Packet.mk PKind.traceroute src dst content)]
      rw [hnb] at hsome
      exact forward_sends_forward s _ c nb info hsome hc hinfo

/-- C8 witness: linked_state forwards a packet for destination 1 out port 0
(neighbor 1's port) and keeps the state unchanged. -/
theorem handle_packet_forwarding_witness :
    (handle_packet linked_state 3 pkt_to_neighbor).1 = linked_state ∧
    (handle_packet linked_state 3 pkt_to_neighbor).2 = [(0, pkt_to_neighbor)] := by
  have h := handle_packet_forwarding linked_state 3 pkt_to_neighbor rfl
  exact ⟨h.1, (h.2.2 1 (some 1) (by decide)).2 1 ⟨0, 1⟩ (by decide) rfl (by decide)⟩

/-- C10: in any state where the node's own address is not in the neighbor
set and the self entry (when present) points at itself, a data packet
addressed to the node itself is silently dropped: no send, no state change. -/
theorem self_addressed_packet_dropped (s : State) (port : Port)
    (packet : Packet) (hk : packet.kind = PKind.traceroute)
    (hdst : packet.dst_addr = s.addr)
    (hself : ∀ c nh, lookupD s.addr s.distance_vector = some (c, nh) →
      nh = some s.addr)
    (hnb : lookupD s.addr s.neighbors = none) :
    handle_packet s port packet = (s, []) := by
  obtain ⟨kind, src, dst, content⟩ := packet
  have hk' : kind = PKind.traceroute := hk
  subst hk'
  have hdst' : dst = s.addr := hdst
  subst hdst'
  show (s, forward_sends s (Packet.mk PKind.traceroute src s.addr content)) =
    (s, [])
  have hfs : forward_sends s (Packet.mk PKind.traceroute src s.addr content)
      = [] := by
    cases hl : lookupD s.addr s.distance_vector with
    | none => exact forward_sends_none s _ hl
    | some e =>
      obtain ⟨c, nh⟩ := e
      have hnh := hself c nh hl
      subst hnh
      exact forward_sends_drop_unknown s _ c s.addr hl hnb
  rw [hfs]

/-- C10 witness: router 0 in linked_state silently drops a packet addressed
to itself. -/
theorem self_addressed_packet_dropped_witness :
    handle_packet linked_state 3 pkt_to_self = (linked_state, []) :=
  self_addressed_packet_dropped linked_state 3 pkt_to_self rfl rfl
    (fun c nh h => (congrArg Prod.snd (Option.some.inj h)).symm) (by decide)

/-- C6 counterexample: re-adding the identical link to neighbor 1 leaves the
recomputed table unchanged, so the link-up event sends no routing packet at
all, contradicting the claim that every link-up broadcasts. -/
theorem link_up_without_change_sends_nothing :
    (handle_new_link linked_state 0 1 1).2 = [] := by decide

/-- C6 amended: every link-up recomputes; the handler broadcasts — one
packet per neighbor, hence at least one, since the new endpoint is a
neighbor — exactly when the recomputed table differs from the current one,
and sends nothing when the table is unchanged. -/
theorem handle_new_link_broadcast_iff_changed (s : State) (port : Port)
    (endpoint : Addr) (cost : Cost) :
    (dictBeq (new_dv_of (linkUpState s port endpoint cost))
        (linkUpState s port endpoint cost).distance_vector = true →
      handle_new_link s port endpoint cost =
        (linkUpState s port endpoint cost, [])) ∧
    (dictBeq (new_dv_of (linkUpState s port endpoint cost))
        (linkUpState s port endpoint cost).distance_vector = false →
      (handle_new_link s port endpoint cost).2 =
        broadcast_dv (handle_new_link s port endpoint cost).1 ∧
      (handle_new_link s port endpoint cost).2 ≠ []) := by
  constructor
  · intro h
    exact update_dv_eq_of_beq _ h
  · intro h
    have h' : ¬ dictBeq (new_dv_of (linkUpState s port endpoint cost))
        (linkUpState s port endpoint cost).distance_vector = true := by
      rw [h]; exact Bool.false_ne_true
    rw [handle_new_link, update_dv_eq_of_ne _ h']
    refine ⟨rfl, ?_⟩
    rw [broadcast_dv, broadcast_core]
    intro hnil
    exact insertD_ne_nil endpoint ⟨port, cost⟩ s.neighbors
      (List.map_eq_nil_iff.mp hnil)

/-- C6 amended witness: the very first link-up from a fresh router changes
the table and broadcasts at least one packet. -/
theorem handle_new_link_broadcast_iff_changed_witness :
    (handle_new_link (init 0 5) 0 1 1).2 =
      broadcast_dv (handle_new_link (init 0 5) 0 1 1).1 ∧
    (handle_new_link (init 0 5) 0 1 1).2 ≠ [] :=
  (handle_new_link_broadcast_iff_changed (init 0 5) 0 1 1).2 (by decide)

/-- C5 counterexample: linked_state is reachable, and its entry for the
node's own address has cost 0 < INFINITY with next hop 0, yet 0 is not a key
of the neighbor set — the claimed invariant fails at the self destination. -/
theorem self_route_violates_live_next_hop :
    Reachable (fun _ => True) linked_state ∧
    lookupD linked_state.addr linked_state.distance_vector =
      some (0, some 0) ∧
    (0 : Cost) < INFINITY ∧ lookupD 0 linked_state.neighbors = none :=
  ⟨Reachable.step (init 0 5) (Event.new_link 0 1 1) (Reachable.start 0 5)
      trivial,
   by decide, by decide, by decide⟩

/-- C5 amended: in every reachable state, every finite-cost destination
other than self has a next hop that is a live neighbor; and immediately
after a link-down that removes a neighbor other than the node itself, no
table entry routes via the removed neighbor at finite cost. -/
theorem reachable_live_next_hops (s : State)
    (hr : Reachable (fun _ => True) s) :
    (∀ d c nh, lookupD d s.distance_vector = some (c, nh) → d ≠ s.addr →
      c < INFINITY →
      ∃ nb, nh = some nb ∧ (lookupD nb s.neighbors).isSome = true) ∧
    (∀ port q, s.neighbors.find? (fun p => p.2.port == port) = some q →
      q.1 ≠ 0 → q.1 ≠ s.addr →
      ∀ d c nh,
        lookupD d (handle_remove_link s port).1.distance_vector =
          some (c, nh) →
        nh = some q.1 → INFINITY ≤ c) := by
  constructor
  · exact (wf_reachable hr).2.2.2.2
  · intro port q hf hq0 hqa d c nh hl hnh
    by_contra hcl
    push_neg at hcl
    have hr' : Reachable (fun _ => True) (stepS s (Event.remove_link port)) :=
      Reachable.step s (Event.remove_link port) hr trivial
    have hwf' : WF (handle_remove_link s port).1 := wf_reachable hr'
    have haddr : (handle_remove_link s port).1.addr = s.addr := by
      simp only [handle_remove_link, hf]
      rw [if_pos hq0]
      exact update_dv_addr _
    have hnbs : (handle_remove_link s port).1.neighbors =
        eraseD q.1 s.neighbors := by
      simp only [handle_remove_link, hf]
      rw [if_pos hq0]
      exact update_dv_neighbors _
    by_cases hda : d = (handle_remove_link s port).1.addr
    · have hself := hwf'.2.2.2.1
      rw [← hda] at hself
      have hpair := Option.some.inj (hl.symm.trans hself)
      have hnh2 : nh = some d := congrArg Prod.snd hpair
      rw [hnh] at hnh2
      have hq : q.1 = d := Option.some.inj hnh2
      exact hqa (hq.trans (hda.trans haddr))
    · obtain ⟨nb, hnb1, hnb2⟩ := hwf'.2.2.2.2 d c nh hl hda hcl
      rw [hnh] at hnb1
      have hqnb : q.1 = nb := Option.some.inj hnb1
      subst hqnb
      rw [hnbs, lookupD_eraseD_self (wf_reachable hr).1] at hnb2
      exact Bool.noConfusion hnb2

/-- C5 amended witness: the invariant applied to linked_state at
destination 1, whose route (cost 1) goes via live neighbor 1. -/
theorem reachable_live_next_hops_witness :
    ∃ nb, (some 1 : Option Addr) = some nb ∧
      (lookupD nb linked_state.neighbors).isSome = true :=
  (reachable_live_next_hops linked_state
      (Reachable.step (init 0 5) (Event.new_link 0 1 1) (Reachable.start 0 5)
        trivial)).1
    1 1 (some 1) (by decide) (by decide) (by decide)

/-- C7 counterexample: neg_advert_state is reachable with only non-negative
link costs supplied at link-up, yet after ingesting a decodable
advertisement carrying cost -100 for destination 2 its table stores the
negative cost -99. -/
theorem negative_advert_negative_cost :
    Reachable (fun e => eventLinkCostsNN e = true) neg_advert_state ∧
    lookupD 2 neg_advert_state.distance_vector = some (-99, some 1) ∧
    ((-99 : Cost) < 0) :=
  ⟨Reachable.step linked_state
      (Event.packet 0 (Packet.mk PKind.routing 1 0 (some [(2, -100)])))
      (Reachable.step (init 0 5) (Event.new_link 0 1 1)
        (Reachable.start 0 5) (by decide))
      (by decide),
   by decide, by decide⟩

/-- C7 amended: in every state reachable with non-negative link costs and
non-negative advertised costs, every stored routing-table cost lies between
0 and INFINITY. -/
theorem reachable_table_costs_bounded (s : State)
    (hr : Reachable (fun e => eventNN e = true) s) :
    ∀ p ∈ s.distance_vector, 0 ≤ p.2.1 ∧ p.2.1 ≤ INFINITY :=
  (costBounds_reachable hr).1

/-- C7 amended witness: the bound evaluated on linked_state's entry for
destination 1, which has cost 1. -/
theorem reachable_table_costs_bounded_witness :
    (0 : Cost) ≤ 1 ∧ (1 : Cost) ≤ INFINITY :=
  reachable_table_costs_bounded linked_state
    (Reachable.step (init 0 5) (Event.new_link 0 1 1) (Reachable.start 0 5)
      (by decide))
    (1, (1, some 1)) (by decide)

/-- C2: a routing packet from a live neighbor whose payload is valid JSON
but not a mapping (the list [1, 2, 3]) is stored into neighbor_dvs and then
raises an AttributeError inside update_dv that the except clause does not
catch: the handler both mutates state and lets the exception escape. -/
theorem malformed_routing_payload_crashes :
    handle_routing_dyn dyn_state 1 (some listy_payload) =
      POutcome.exn pyAttributeError
        { dyn_state with neighbor_dvs := [(1, listy_payload)] } ∧
    dyn_state.neighbor_dvs = [(1, PyVal.dict [])] ∧
    [(1, listy_payload)] ≠ dyn_state.neighbor_dvs := by
  refine ⟨rfl, rfl, ?_⟩
  intro h
  have h1 : ((1 : Addr), listy_payload) = (1, PyVal.dict []) :=
    List.head_eq_of_cons_eq h
  have h2 : listy_payload = PyVal.dict [] := congrArg Prod.snd h1
  exact PyVal.noConfusion h2

end DVR
